import Mathlib

/-!
# Verification of the multi-sheet search and ranking engine (`src/backend.py`)

Shallow embedding of the keyword-search engine (`_looks_like_id`,
`keyword_match_mask`, `keyword_search`), the TF-IDF semantic index
(`TfIdfSemantic.build`, `TfIdfSemantic.search`) and the workbook-loading
route (`load_workbook`), together with proofs about the specified
properties.

Modelling conventions:
* A workbook is an association list from sheet name to sheet, mirroring a
  Python `dict` (insertion order preserved, keys unique).  A sheet is a
  list of rows; each row is the list of its cells' string forms (the code
  string-coerces every cell with `astype(str)` before searching, so cells
  are modelled post-coercion).
* Python `int` parameters that are only ever used as non-negative caps
  (`per_sheet_cap`, `total_cap`, `per_sheet_limit`, `top_k_per_sheet`) are
  modelled as `Nat`; parameters that the code compares against `None` are
  wrapped in `Option`.
* Exceptions are modelled with `Except Unit`.
-/

namespace DataSearchEngine

abbrev Row := List String
abbrev Sheet := List Row
abbrev Workbook := List (String × Sheet)

/-- Python `str.lower` over the characters of a string (ASCII lowering,
which is what the workloads considered here exercise). -/
def strLower (s : String) : String := ⟨s.data.map Char.toLower⟩

/-- `df.empty` for a rectangular table: true when there are no rows or no
columns (all rows of a rectangular frame with zero columns are `[]`). -/
def dfEmpty (s : Sheet) : Bool := s.isEmpty || (s.headD []).isEmpty

/-! ## A model of the regular-expression engine behind `pandas.Series.str.contains`

`keyword_match_mask` calls `sdf[c].str.contains(q, case=False, na=False)`,
and pandas' default `regex=True` compiles the *query itself* as a Python
regular expression (with `re.IGNORECASE`) and tests `re.search` on every
cell.  We model the fragment of Python's regex language consisting of
literal characters, `.`, the quantifiers `*`, `+`, `?` (plus their lazy
`?`-suffixed forms), alternation `|` and groups `(`…`)`.  Patterns using
constructs outside this fragment (classes, escapes, anchors, bounded
repeats) are rejected by the model's parser; in particular a dangling
`(`, `)`, a leading quantifier, or a doubled quantifier is a `re.error`
in Python exactly as here. -/

inductive Re where
  | emp : Re
  | eps : Re
  | lit : Char → Re
  | any : Re
  | cat : Re → Re → Re
  | alt : Re → Re → Re
  | star : Re → Re
deriving DecidableEq, Repr

/-- Whether the language of `r` contains the empty string. -/
def nullable : Re → Bool
  | .emp => false
  | .eps => true
  | .lit _ => false
  | .any => false
  | .cat a b => nullable a && nullable b
  | .alt a b => nullable a || nullable b
  | .star _ => true

/-- Brzozowski derivative; literals compare case-insensitively, which is
how the compiled pattern behaves under `re.IGNORECASE`, and `.` matches
any character except a newline (no `re.DOTALL`). -/
def deriv (r : Re) (c : Char) : Re :=
  match r with
  | .emp => .emp
  | .eps => .emp
  | .lit a => if a.toLower = c.toLower then .eps else .emp
  | .any => if c = '\n' then .emp else .eps
  | .cat a b =>
      if nullable a then .alt (.cat (deriv a c) b) (deriv b c)
      else .cat (deriv a c) b
  | .alt a b => .alt (deriv a c) (deriv b c)
  | .star a => .cat (deriv a c) (.star a)

/-- Does some leading segment (possibly empty) of `cs` match `r`? -/
def reHeadMatch (r : Re) : List Char → Bool
  | [] => nullable r
  | c :: t => nullable r || reHeadMatch (deriv r c) t

/-- `re.search`: does `r` match starting at some position of `cs`
(including the position at the end of the string)? -/
def reSearch (r : Re) : List Char → Bool
  | [] => nullable r
  | c :: t => reHeadMatch r (c :: t) || reSearch r t

/-- Characters that are special in a Python regular expression. -/
def isMeta (c : Char) : Bool :=
  c ∈ ['.', '*', '+', '?', '(', ')', '[', ']', '{', '}', '|', '\\', '^', '$']

/-- After one quantifier has been applied: an immediately following `?`
makes it lazy (same language), while a further quantifier is Python's
`re.error: multiple repeat`. -/
def reQuant (r : Re) (t : List Char) : Except Unit (Re × List Char) :=
  match t with
  | '?' :: t2 =>
    match t2 with
    | '*' :: _ => .error ()
    | '+' :: _ => .error ()
    | '?' :: _ => .error ()
    | _ => .ok (r, t2)
  | '*' :: _ => .error ()
  | '+' :: _ => .error ()
  | _ => .ok (r, t)

/-- Apply an optional postfix quantifier to a parsed atom. -/
def reApplyQuant (a : Re) : List Char → Except Unit (Re × List Char)
  | '*' :: t => reQuant (.star a) t
  | '+' :: t => reQuant (.cat a (.star a)) t
  | '?' :: t => reQuant (.alt a .eps) t
  | t => .ok (a, t)

mutual

/-- Parse one atom: a group, `.`, or a literal character.  A quantifier
with nothing to repeat, an unsupported metacharacter, or the end of the
pattern is an error (as in Python for `"*a"`, a lone `"\\"`, …). -/
def reParseAtom : Nat → List Char → Except Unit (Re × List Char)
  | 0, _ => .error ()
  | _ + 1, [] => .error ()
  | f + 1, c :: rest =>
    if c = '(' then
      match reParseAlt f rest with
      | .error e => .error e
      | .ok (r, rest2) =>
        match rest2 with
        | ')' :: rest3 => .ok (r, rest3)
        | _ => .error ()
    else if c = '.' then .ok (.any, rest)
    else if isMeta c then .error ()
    else .ok (.lit c, rest)

/-- Parse a (possibly empty) concatenation of quantified atoms, stopping
at `)`, `|` or the end of the pattern. -/
def reParseSeq : Nat → List Char → Except Unit (Re × List Char)
  | 0, _ => .error ()
  | _ + 1, [] => .ok (.eps, [])
  | f + 1, c :: rest =>
    if c = ')' ∨ c = '|' then .ok (.eps, c :: rest)
    else
      match reParseAtom f (c :: rest) with
      | .error e => .error e
      | .ok (a, rest2) =>
        match reApplyQuant a rest2 with
        | .error e => .error e
        | .ok (a2, rest3) =>
          match reParseSeq f rest3 with
          | .error e => .error e
          | .ok (tail, rest4) => .ok (.cat a2 tail, rest4)

/-- Parse an alternation of sequences. -/
def reParseAlt : Nat → List Char → Except Unit (Re × List Char)
  | 0, _ => .error ()
  | f + 1, cs =>
    match reParseSeq f cs with
    | .error e => .error e
    | .ok (r, rest) =>
      match rest with
      | '|' :: rest2 =>
        match reParseAlt f rest2 with
        | .error e => .error e
        | .ok (r2, rest3) => .ok (.alt r r2, rest3)
      | _ => .ok (r, rest)

end

/-- `re.compile` for the modelled fragment.  The fuel `3 * n + 6` strictly
dominates the recursion depth of the descent (each unit of nesting or of
consumed input costs at most three calls), so it is never exhausted on
patterns the grammar accepts.  Leftover input after a complete parse means
an unmatched `)` — an `re.error` in Python too. -/
def reParse (q : String) : Except Unit Re :=
  match reParseAlt (3 * q.data.length + 6) q.data with
  | .error e => .error e
  | .ok (r, []) => .ok r
  | .ok (_, _ :: _) => .error ()

/-! ## Keyword engine (`src/backend.py` lines 24-76) -/

/-- The anchored core `[A-Za-z]+0*\d+` of `_looks_like_id`'s pattern,
matched against a whole character list.  Since `0` is itself a digit, the
tail `0*\d+` matches exactly the nonempty all-digit strings, so the check
is: a nonempty run of letters followed by a nonempty run of digits. -/
def reIdCore (cs : List Char) : Bool :=
  let rest := cs.dropWhile Char.isAlpha
  !(cs.takeWhile Char.isAlpha).isEmpty && !rest.isEmpty && rest.all Char.isDigit

/-- `_looks_like_id(s)`: `re.match(r"^[A-Za-z]+0*\d+$", str(s))`.  Python's
`$` also matches just before a single newline at the very end of the
string, hence the second disjunct. -/
def looks_like_id (s : String) : Bool :=
  reIdCore s.data || (s.data.getLast? == some '\n' && reIdCore s.data.dropLast)

/-- `keyword_match_mask(df, query)`: one boolean per row, the OR over the
row's cells of the per-cell match.  Identifier-like queries use exact
case-insensitive equality (`sdf[c].str.lower() == q.lower()`); all other
queries go through `str.contains(q, case=False, na=False)`, i.e. the query
is compiled as a case-insensitive regular expression and searched in each
cell, raising when the query is an invalid pattern. -/
def keyword_match_mask (df : Sheet) (query : String) : Except Unit (List Bool) :=
  if looks_like_id query then
    .ok (df.map (fun row => row.any (fun cell => strLower cell == strLower query)))
  else
    match reParse query with
    | .error e => .error e
    | .ok r => .ok (df.map (fun row => row.any (fun cell => reSearch r cell.data)))

/-- `df.loc[mask]`: the rows at positions where the mask is true, in
original order. -/
def applyMask (rows : List Row) (mask : List Bool) : List Row :=
  (rows.zip mask).filterMap (fun p => if p.2 then some p.1 else none)

/-- The main loop of `keyword_search` (lines 52-61): per sheet, an empty
frame contributes a zero count and is skipped before any mask is
computed; otherwise the mask's true-count is recorded, added to the total,
and — when positive — the first `per_sheet_cap` matching rows become the
sheet's candidate result. -/
def kwLoop (query : String) (cap : Nat) :
    Workbook → Except Unit (List (String × Sheet) × List (String × Nat) × Nat)
  | [] => .ok ([], [], 0)
  | (name, df) :: rest =>
    if dfEmpty df then
      match kwLoop query cap rest with
      | .error e => .error e
      | .ok (r, c, t) => .ok (r, (name, 0) :: c, t)
    else
      match keyword_match_mask df query with
      | .error e => .error e
      | .ok mask =>
        let count := mask.count true
        match kwLoop query cap rest with
        | .error e => .error e
        | .ok (r, c, t) =>
          .ok ((if 0 < count then (name, (applyMask df mask).take cap) :: r else r),
               (name, count) :: c, count + t)

/-- The global-cap loop of `keyword_search` (lines 63-75), over the
candidate results already arranged in sorted-name order: stop when the
budget is exhausted; a candidate that fits is taken whole, one that does
not contributes its first `remaining` rows and ends the fill. -/
def trimLoop : List (String × Sheet) → Nat → List (String × Sheet)
  | [], _ => []
  | (n, dfm) :: rest, remaining =>
    if remaining = 0 then []
    else if dfm.length ≤ remaining then
      (n, dfm) :: trimLoop rest (remaining - dfm.length)
    else [(n, dfm.take remaining)]

/-- Lexicographic (code-point) order on sheet names, Python's `sorted` on
`str`. -/
def charListLe : List Char → List Char → Bool
  | [], _ => true
  | _ :: _, [] => false
  | a :: as, b :: bs =>
    if a.toNat < b.toNat then true
    else if b.toNat < a.toNat then false
    else charListLe as bs

/-- `sorted(results.keys())` together with the dictionary lookups
`results[name]`: since the keys of a Python dict are unique, iterating the
sorted keys and looking each one up is the same as sorting the (name,
table) pairs by name. -/
def sortPairs (l : List (String × Sheet)) : List (String × Sheet) :=
  List.insertionSort (fun p q => charListLe p.1.data q.1.data = true) l

/-- `keyword_search(sheets, query, per_sheet_cap, total_cap)` (lines
43-76): run the per-sheet loop, then apply the global cap when
`total_cap` is not `None` and the *uncapped* total exceeds it. -/
def keyword_search (sheets : Workbook) (query : String)
    (per_sheet_cap : Nat := 100) (total_cap : Option Nat := some 1000) :
    Except Unit (List (String × Sheet) × List (String × Nat) × Nat) :=
  match kwLoop query per_sheet_cap sheets with
  | .error e => .error e
  | .ok (results, counts, total) =>
    match total_cap with
    | some tc =>
      if tc < total then .ok (trimLoop (sortPairs results) tc, counts, total)
      else .ok (results, counts, total)
    | none => .ok (results, counts, total)

/-- The uncapped per-sheet match count, exactly as lines 53-57 compute it
before any truncation: zero for an empty frame (whose mask is never
evaluated), otherwise the number of true entries of the mask. -/
def uncappedCount (df : Sheet) (query : String) : Except Unit Nat :=
  if dfEmpty df then .ok 0
  else
    match keyword_match_mask df query with
    | .error e => .error e
    | .ok mask => .ok (mask.count true)

/-- Modelled from the spec: the *identifier pattern* as §4.1 words it —
one or more letters, then zero or more leading zeros, then one or more
digits, anchored at both ends of the string.  (The zeros may equally be
read as part of the digits, so the language is: letters then digits.) -/
def specIdPattern (q : String) : Bool :=
  let rest := q.data.dropWhile Char.isAlpha
  !(q.data.takeWhile Char.isAlpha).isEmpty && !rest.isEmpty && rest.all Char.isDigit

/-- Modelled from the spec: case-insensitive *literal* substring
containment of the query in a cell's string form. -/
def containsLiteralCI (cell q : String) : Bool :=
  (List.range ((strLower cell).data.length + 1)).any
    (fun i => (strLower q).data.isPrefixOf ((strLower cell).data.drop i))

/-! ## Semantic index (`src/backend.py` lines 83-121, 152-162)

`TfIdfSemantic` keeps three dictionaries (`vectorizers`, `matrices`,
`rows`) that `build` populates in lockstep under the same keys, one entry
per sheet (lines 105-107 run together after a successful fit); we model
the triple of aligned dictionaries as a single association list of
per-sheet records.  The numeric content of the TF-IDF weight matrix and
the cosine-similarity computation live in scikit-learn, outside this
repository; the matrix is represented by its row-aligned source documents
and the similarity computation is abstracted as a function argument
yielding one (exact, rational-valued) score per matrix row, as the spec's
design notes direct (`fit`/`transform`/`similarity` behind an
interface). -/

/-- A sklearn word token: a character of class `\w`. -/
def wordChar (c : Char) : Bool := c.isAlphanum || c = '_'

/-- Maximal runs of word characters in a character list (accumulator holds
the current run, reversed). -/
def tokenRunsAux (cur : List Char) : List Char → List (List Char)
  | [] => if cur.isEmpty then [] else [cur.reverse]
  | c :: rest =>
    if wordChar c then tokenRunsAux (c :: cur) rest
    else if cur.isEmpty then tokenRunsAux [] rest
    else cur.reverse :: tokenRunsAux [] rest

/-- The tokens `TfidfVectorizer` extracts from a document: lowercase the
text, then take the maximal word-character runs of length at least two
(the default `token_pattern`, `\b\w\w+\b`). -/
def tokensOf (doc : String) : List String :=
  ((tokenRunsAux [] (strLower doc).data).filter (fun r => 2 ≤ r.length)).map
    (fun r => (⟨r⟩ : String))

/-- `TfidfVectorizer(...).fit_transform(texts)`'s vocabulary building:
the distinct tokens of the documents.  A fit whose vocabulary comes out
empty raises `ValueError: empty vocabulary` — the model's error case.
(The alphabetical ordering of the stored vocabulary and the
`max_features=200000` cap are not modelled: with fewer than 200000
distinct terms the cap never bites, and nothing here reads the order.) -/
def fitVocab (texts : List String) : Except Unit (List String) :=
  let vocab := ((texts.map tokensOf).flatten).dedup
  if vocab.isEmpty then .error () else .ok vocab

/-- The per-sheet state `build` stores under a sheet's name: the fitted
vectorizer (its vocabulary), the weight matrix (modelled by its
row-aligned documents), and the truncated row set. -/
structure SheetIndex where
  vec : List String
  mat : List String
  rws : Sheet
deriving DecidableEq, Repr

/-- `TfIdfSemantic.row_texts(df)`: one text per row, the string-coerced
cells joined by `" | "` in column order. -/
def row_texts (df : Sheet) : List String :=
  df.map (fun r => String.intercalate " | " r)

namespace TfIdfSemantic

abbrev State := List (String × SheetIndex)

/-- `TfIdfSemantic.build(sheets, per_sheet_limit)` (lines 94-107), run
from the cleared state: per sheet take the leading `per_sheet_limit` rows
(all rows when `None`), skip the sheet when it yields no texts, otherwise
fit and store.  The build mutates the index in place, so a fit failure
leaves the entries of the already-processed sheets in place and abandons
the rest; the boolean records whether the loop completed.  The old state
is discarded by the initial `clear()` calls, so the result depends only on
the new workbook. -/
def build (limit : Option Nat) : Workbook → State × Bool
  | [] => ([], true)
  | (name, df) :: rest =>
    let use_df := match limit with | none => df | some l => df.take l
    let texts := row_texts use_df
    if texts.isEmpty then build limit rest
    else
      match fitVocab texts with
      | .error _ => ([], false)
      | .ok vec =>
        let out := build limit rest
        ((name, ⟨vec, texts, use_df⟩) :: out.1, out.2)

/-- `sims.argsort()[::-1]`: indices of the score list sorted by ascending
score, then reversed — a descending-score arrangement of `0, …, n-1`. -/
def argsortDesc (sims : List ℚ) : List Nat :=
  (List.insertionSort (fun i j => sims.getD i 0 ≤ sims.getD j 0)
    (List.range sims.length)).reverse

/-- `TfIdfSemantic.search(query, top_k_per_sheet)` (lines 109-121): for
every indexed sheet (skipping one whose matrix has no rows), compute the
similarity of every matrix row to the transformed query — the
scikit-learn step, abstracted as `sim` —, take the first
`top_k_per_sheet` indices in descending score order, and return the
selected stored rows each with its score as the leading field. -/
def search (sim : List String → List String → String → List ℚ)
    (st : State) (query : String) (topK : Nat) :
    List (String × List (ℚ × Row)) :=
  st.filterMap (fun p =>
    if p.2.mat.length == 0 then none
    else
      let sims := sim p.2.vec p.2.mat query
      let idx := (argsortDesc sims).take topK
      some (p.1, idx.map (fun i => (sims.getD i 0, p.2.rws.getD i []))))

end TfIdfSemantic

/-- The module-level mutable state of the app: the loaded workbook
`SHEETS` and the semantic index `SEM`. -/
structure AppState where
  SHEETS : Workbook
  SEM : TfIdfSemantic.State
deriving DecidableEq

/-- The `/load` route (lines 152-162).  Parsing the upload is pandas'
job, so the parse outcome is the route's input.  On a parse failure the
exception is raised before `SHEETS` is assigned: the previous state
survives untouched and a 400 is returned.  On a successful parse the new
workbook is assigned to `SHEETS` first and only then is the index rebuilt;
a failure inside `build` is caught by the same handler, after the
assignment and the partial mutation have already happened.  The boolean is
`true` exactly when the route returns the success payload. -/
def load_workbook (st : AppState) (parsed : Except Unit Workbook) : AppState × Bool :=
  match parsed with
  | .error _ => (st, false)
  | .ok wb =>
    let b := TfIdfSemantic.build (some 5000) wb
    ({ SHEETS := wb, SEM := b.1 }, b.2)

/-! ## Helper lemmas -/

/-- Total number of rows across a list of per-sheet result tables. -/
def sumLens (l : List (String × Sheet)) : Nat :=
  (l.map (fun p => p.2.length)).sum

theorem applyMask_map (rows : List Row) (p : Row → Bool) :
    applyMask rows (rows.map p) = rows.filter p := by
  induction rows with
  | nil => rfl
  | cons r rest ih =>
    simp only [applyMask, List.map_cons, List.zip_cons_cons, List.filterMap_cons,
      List.filter_cons] at *
    cases hp : p r <;> simp [hp, ih]

theorem mem_applyMask_map {rows : List Row} {p : Row → Bool} {row : Row}
    (h : row ∈ applyMask rows (rows.map p)) : row ∈ rows ∧ p row = true := by
  rw [applyMask_map] at h
  exact ⟨(List.mem_filter.mp h).1, (List.mem_filter.mp h).2⟩

theorem trimLoop_mem {l : List (String × Sheet)} {rem : Nat} {p : String × Sheet}
    (h : p ∈ trimLoop l rem) : ∃ d, (p.1, d) ∈ l ∧ p.2 <+: d := by
  induction l generalizing rem with
  | nil => simp [trimLoop] at h
  | cons hd tl ih =>
    obtain ⟨n, dfm⟩ := hd
    simp only [trimLoop] at h
    by_cases h0 : rem = 0
    · simp [h0] at h
    · simp only [h0, if_false] at h
      by_cases hle : dfm.length ≤ rem
      · simp only [hle, if_true, List.mem_cons] at h
        rcases h with h | h
        · exact ⟨dfm, by simp [h], by simp [h]⟩
        · obtain ⟨d, hd, hpre⟩ := ih h
          exact ⟨d, List.mem_cons_of_mem _ hd, hpre⟩
      · simp only [hle, if_false, List.mem_cons, List.not_mem_nil, or_false] at h
        refine ⟨dfm, by simp [h], ?_⟩
        subst h
        exact ⟨dfm.drop rem, List.take_append_drop rem dfm⟩

theorem trimLoop_sumLens_le (l : List (String × Sheet)) (rem : Nat) :
    sumLens (trimLoop l rem) ≤ rem := by
  induction l generalizing rem with
  | nil => simp [trimLoop, sumLens]
  | cons hd tl ih =>
    obtain ⟨n, dfm⟩ := hd
    simp only [trimLoop]
    by_cases h0 : rem = 0
    · simp [h0, sumLens]
    · simp only [h0, if_false]
      by_cases hle : dfm.length ≤ rem
      · simp only [hle, if_true, sumLens, List.map_cons, List.sum_cons]
        have := ih (rem - dfm.length)
        simp only [sumLens] at this
        omega
      · simp only [hle, if_false, sumLens, List.map_cons, List.map_nil, List.sum_cons,
          List.sum_nil, List.length_take]
        omega

theorem trimLoop_sumLens_eq {l : List (String × Sheet)} {rem : Nat}
    (h : rem < sumLens l) : sumLens (trimLoop l rem) = rem := by
  induction l generalizing rem with
  | nil => simp [sumLens] at h
  | cons hd tl ih =>
    obtain ⟨n, dfm⟩ := hd
    simp only [trimLoop]
    by_cases h0 : rem = 0
    · simp [h0, sumLens]
    · simp only [h0, if_false]
      by_cases hle : dfm.length ≤ rem
      · simp only [sumLens, List.map_cons, List.sum_cons] at h ⊢
        have hlt : rem - dfm.length < sumLens tl := by
          simp only [sumLens]; omega
        have := ih hlt
        simp only [hle, if_true, List.map_cons, List.sum_cons]
        simp only [sumLens] at this
        omega
      · simp only [hle, if_false, sumLens, List.map_cons, List.map_nil, List.sum_cons,
          List.sum_nil, List.length_take]
        omega

theorem trimLoop_keys (l : List (String × Sheet)) (rem : Nat) :
    (trimLoop l rem).map Prod.fst <+: l.map Prod.fst := by
  induction l generalizing rem with
  | nil => simp [trimLoop]
  | cons hd tl ih =>
    obtain ⟨n, dfm⟩ := hd
    simp only [trimLoop]
    by_cases h0 : rem = 0
    · simp [h0]
    · simp only [h0, if_false]
      by_cases hle : dfm.length ≤ rem
      · simp only [hle, if_true, List.map_cons]
        obtain ⟨t, ht⟩ := ih (rem - dfm.length)
        exact ⟨t, by rw [List.cons_append, ht]⟩
      · simp only [hle, if_false, List.map_cons, List.map_nil]
        exact ⟨(tl.map Prod.fst), rfl⟩

theorem mem_sortPairs {l : List (String × Sheet)} {p : String × Sheet} :
    p ∈ sortPairs l ↔ p ∈ l :=
  (List.perm_insertionSort _ l).mem_iff

theorem sumLens_sortPairs (l : List (String × Sheet)) :
    sumLens (sortPairs l) = sumLens l :=
  ((List.perm_insertionSort _ l).map _).sum_eq

theorem count_true_map (l : List Row) (p : Row → Bool) :
    (l.map p).count true = l.countP p := by
  induction l with
  | nil => rfl
  | cons a tl ih =>
    simp only [List.map_cons, List.count_cons, List.countP_cons, ih]
    cases hp : p a <;> simp [hp]

theorem keyword_match_mask_ok {df : Sheet} {q : String} {mask : List Bool}
    (h : keyword_match_mask df q = .ok mask) : ∃ p, mask = df.map p := by
  cases hid : looks_like_id q with
  | true =>
    simp only [keyword_match_mask, hid, if_true, Except.ok.injEq] at h
    exact ⟨_, h.symm⟩
  | false =>
    simp only [keyword_match_mask, hid, Bool.false_eq_true, if_false] at h
    cases hp : reParse q with
    | error e => rw [hp] at h; simp at h
    | ok r =>
      rw [hp] at h
      simp only [Except.ok.injEq] at h
      exact ⟨_, h.symm⟩

theorem length_applyMask_of_mask {df : Sheet} {q : String} {mask : List Bool}
    (h : keyword_match_mask df q = .ok mask) :
    (applyMask df mask).length = mask.count true := by
  obtain ⟨p, hp⟩ := keyword_match_mask_ok h
  subst hp
  rw [applyMask_map, count_true_map, List.countP_eq_length_filter]

theorem kwLoop_cons_ok {q : String} {cap : Nat} {n : String} {df : Sheet}
    {rest : Workbook} {r : List (String × Sheet)} {c : List (String × Nat)} {t : Nat}
    (h : kwLoop q cap ((n, df) :: rest) = .ok (r, c, t)) :
    (∃ c', dfEmpty df = true ∧ kwLoop q cap rest = .ok (r, c', t) ∧ c = (n, 0) :: c') ∨
    (∃ mask r' c' t', dfEmpty df = false ∧ keyword_match_mask df q = .ok mask ∧
      kwLoop q cap rest = .ok (r', c', t') ∧
      r = (if 0 < mask.count true then (n, (applyMask df mask).take cap) :: r' else r') ∧
      c = (n, mask.count true) :: c' ∧ t = mask.count true + t') := by
  cases he : dfEmpty df with
  | true =>
    left
    simp only [kwLoop, he, if_true] at h
    cases hk : kwLoop q cap rest with
    | error e => rw [hk] at h; simp at h
    | ok v =>
      obtain ⟨r', c', t'⟩ := v
      rw [hk] at h
      simp only [Except.ok.injEq, Prod.mk.injEq] at h
      obtain ⟨h1, h2, h3⟩ := h
      subst h1; subst h3
      exact ⟨c', rfl, rfl, h2.symm⟩
  | false =>
    right
    simp only [kwLoop, he, Bool.false_eq_true, if_false] at h
    cases hm : keyword_match_mask df q with
    | error e => rw [hm] at h; simp at h
    | ok mask =>
      rw [hm] at h
      cases hk : kwLoop q cap rest with
      | error e => rw [hk] at h; simp at h
      | ok v =>
        obtain ⟨r', c', t'⟩ := v
        rw [hk] at h
        simp only [Except.ok.injEq, Prod.mk.injEq] at h
        exact ⟨mask, r', c', t', rfl, rfl, rfl,
          h.1.symm, h.2.1.symm, h.2.2.symm⟩

theorem kwLoop_nil_ok {q : String} {cap : Nat} {r : List (String × Sheet)}
    {c : List (String × Nat)} {t : Nat}
    (h : kwLoop q cap [] = .ok (r, c, t)) : r = [] ∧ c = [] ∧ t = 0 := by
  simp only [kwLoop, Except.ok.injEq, Prod.mk.injEq] at h
  exact ⟨h.1.symm, h.2.1.symm, h.2.2.symm⟩

theorem kwLoop_sum_counts {q : String} {cap : Nat} {wb : Workbook}
    {r : List (String × Sheet)} {c : List (String × Nat)} {t : Nat}
    (h : kwLoop q cap wb = .ok (r, c, t)) : (c.map Prod.snd).sum = t := by
  induction wb generalizing r c t with
  | nil => obtain ⟨_, hc, ht⟩ := kwLoop_nil_ok h; subst hc; subst ht; rfl
  | cons hd rest ih =>
    obtain ⟨n, df⟩ := hd
    rcases kwLoop_cons_ok h with ⟨c', _, hk, hc⟩ | ⟨mask, r', c', t', _, _, hk, _, hc, ht⟩
    · subst hc
      simpa using ih hk
    · subst hc; subst ht
      have := ih hk
      simp only [List.map_cons, List.sum_cons, this]

theorem kwLoop_counts_keys {q : String} {cap : Nat} {wb : Workbook}
    {r : List (String × Sheet)} {c : List (String × Nat)} {t : Nat}
    (h : kwLoop q cap wb = .ok (r, c, t)) : c.map Prod.fst = wb.map Prod.fst := by
  induction wb generalizing r c t with
  | nil => obtain ⟨_, hc, _⟩ := kwLoop_nil_ok h; subst hc; rfl
  | cons hd rest ih =>
    obtain ⟨n, df⟩ := hd
    rcases kwLoop_cons_ok h with ⟨c', _, hk, hc⟩ | ⟨mask, r', c', t', _, _, hk, _, hc, _⟩
    · subst hc; simp [ih hk]
    · subst hc; simp [ih hk]

theorem kwLoop_sumLens {q : String} {cap : Nat} {wb : Workbook}
    {r : List (String × Sheet)} {c : List (String × Nat)} {t : Nat}
    (h : kwLoop q cap wb = .ok (r, c, t)) : sumLens r ≤ t := by
  induction wb generalizing r c t with
  | nil =>
    obtain ⟨hr, _, ht⟩ := kwLoop_nil_ok h
    subst hr; subst ht; simp [sumLens]
  | cons hd rest ih =>
    obtain ⟨n, df⟩ := hd
    rcases kwLoop_cons_ok h with ⟨c', _, hk, _⟩ | ⟨mask, r', c', t', _, hm, hk, hr, _, ht⟩
    · exact ih hk
    · subst ht
      have hih := ih hk
      by_cases hpos : 0 < mask.count true
      · subst hr
        simp only [hpos, if_true, sumLens, List.map_cons, List.sum_cons]
        have hlen : ((applyMask df mask).take cap).length ≤ mask.count true := by
          calc ((applyMask df mask).take cap).length ≤ (applyMask df mask).length :=
                by simp [List.length_take]
            _ = mask.count true := length_applyMask_of_mask hm
        simp only [sumLens] at hih
        omega
      · subst hr
        simp only [hpos, if_false]
        omega

theorem kwLoop_mem_results {q : String} {cap : Nat} {wb : Workbook}
    {r : List (String × Sheet)} {c : List (String × Nat)} {t : Nat}
    (h : kwLoop q cap wb = .ok (r, c, t)) :
    ∀ p ∈ r, ∃ df mask, (p.1, df) ∈ wb ∧ dfEmpty df = false ∧
      keyword_match_mask df q = .ok mask ∧ 0 < mask.count true ∧
      p.2 = (applyMask df mask).take cap := by
  induction wb generalizing r c t with
  | nil =>
    obtain ⟨hr, _, _⟩ := kwLoop_nil_ok h
    subst hr; intro p hp; simp at hp
  | cons hd rest ih =>
    obtain ⟨n, df⟩ := hd
    intro p hp
    rcases kwLoop_cons_ok h with ⟨c', _, hk, _⟩ | ⟨mask, r', c', t', hne, hm, hk, hr, _, _⟩
    · obtain ⟨d, m, hmem, h1, h2, h3, h4⟩ := ih hk p hp
      exact ⟨d, m, List.mem_cons_of_mem _ hmem, h1, h2, h3, h4⟩
    · subst hr
      by_cases hpos : 0 < mask.count true
      · simp only [hpos, if_true, List.mem_cons] at hp
        rcases hp with hp | hp
        · subst hp
          exact ⟨df, mask, List.mem_cons_self _ _, hne, hm, hpos, rfl⟩
        · obtain ⟨d, m, hmem, h1, h2, h3, h4⟩ := ih hk p hp
          exact ⟨d, m, List.mem_cons_of_mem _ hmem, h1, h2, h3, h4⟩
      · simp only [hpos, if_false] at hp
        obtain ⟨d, m, hmem, h1, h2, h3, h4⟩ := ih hk p hp
        exact ⟨d, m, List.mem_cons_of_mem _ hmem, h1, h2, h3, h4⟩

theorem kwLoop_lookup_counts {q : String} {cap : Nat} {wb : Workbook}
    {r : List (String × Sheet)} {c : List (String × Nat)} {t : Nat}
    (hnd : (wb.map Prod.fst).Nodup)
    (h : kwLoop q cap wb = .ok (r, c, t)) :
    ∀ n df, (n, df) ∈ wb → ∃ cnt, c.lookup n = some cnt ∧ uncappedCount df q = .ok cnt := by
  induction wb generalizing r c t with
  | nil =>
    intro n df hmem; simp at hmem
  | cons hd rest ih =>
    obtain ⟨m, mdf⟩ := hd
    intro n df hmem
    simp only [List.map_cons, List.nodup_cons] at hnd
    rcases List.mem_cons.mp hmem with heq | htl
    · have hn : n = m := congrArg Prod.fst heq
      have hdf : df = mdf := congrArg Prod.snd heq
      subst hn; subst hdf
      have hbeq : (n == n) = true := beq_self_eq_true n
      rcases kwLoop_cons_ok h with ⟨c', hemp, hk, hc⟩ |
          ⟨mask, r', c', t', hemp, hm, hk, _, hc, _⟩
      · subst hc
        refine ⟨0, ?_, ?_⟩
        · simp [List.lookup, hbeq]
        · simp [uncappedCount, hemp]
      · subst hc
        refine ⟨mask.count true, ?_, ?_⟩
        · simp [List.lookup, hbeq]
        · simp [uncappedCount, hemp, hm]
    · have hnm : n ≠ m := by
        intro hcontra
        subst hcontra
        exact hnd.1 (List.mem_map.mpr ⟨(n, df), htl, rfl⟩)
      have hbeq : (n == m) = false := beq_eq_false_iff_ne.mpr hnm
      rcases kwLoop_cons_ok h with ⟨c', _, hk, hc⟩ |
          ⟨mask, r', c', t', _, _, hk, _, hc, _⟩
      · subst hc
        obtain ⟨cnt, hl, hu⟩ := ih hnd.2 hk n df htl
        exact ⟨cnt, by simpa [List.lookup, hbeq] using hl, hu⟩
      · subst hc
        obtain ⟨cnt, hl, hu⟩ := ih hnd.2 hk n df htl
        exact ⟨cnt, by simpa [List.lookup, hbeq] using hl, hu⟩

theorem kwLoop_counts_mem_zero {q : String} {cap : Nat} {wb : Workbook}
    {r : List (String × Sheet)} {c : List (String × Nat)} {t : Nat}
    (h : kwLoop q cap wb = .ok (r, c, t)) :
    ∀ n df, (n, df) ∈ wb → dfEmpty df = true → (n, 0) ∈ c := by
  induction wb generalizing r c t with
  | nil => intro n df hmem; simp at hmem
  | cons hd rest ih =>
    obtain ⟨m, mdf⟩ := hd
    intro n df hmem hemp
    rcases kwLoop_cons_ok h with ⟨c', hme, hk, hc⟩ |
        ⟨mask, r', c', t', hme, _, hk, _, hc, _⟩ <;> subst hc <;>
      rcases List.mem_cons.mp hmem with heq | htl
    · have hn : n = m := congrArg Prod.fst heq
      subst hn
      exact List.mem_cons_self _ _
    · exact List.mem_cons_of_mem _ (ih hk n df htl hemp)
    · have hdf : df = mdf := congrArg Prod.snd heq
      rw [← hdf, hemp] at hme
      simp at hme
    · exact List.mem_cons_of_mem _ (ih hk n df htl hemp)

theorem keyword_search_cases {wb : Workbook} {q : String} {cap : Nat}
    {tcap : Option Nat} {r : List (String × Sheet)} {c : List (String × Nat)} {t : Nat}
    (h : keyword_search wb q cap tcap = .ok (r, c, t)) :
    ∃ r₀, kwLoop q cap wb = .ok (r₀, c, t) ∧
      ((r = r₀ ∧ ∀ tc, tcap = some tc → t ≤ tc) ∨
       (∃ tc, tcap = some tc ∧ tc < t ∧ r = trimLoop (sortPairs r₀) tc)) := by
  unfold keyword_search at h
  cases hk : kwLoop q cap wb with
  | error e => rw [hk] at h; simp at h
  | ok v =>
    obtain ⟨r₀, c₀, t₀⟩ := v
    rw [hk] at h
    dsimp only at h
    cases tcap with
    | none =>
      dsimp only at h
      simp only [Except.ok.injEq, Prod.mk.injEq] at h
      obtain ⟨h1, h2, h3⟩ := h
      subst h2; subst h3
      exact ⟨r₀, rfl, Or.inl ⟨h1.symm, by simp⟩⟩
    | some tc =>
      dsimp only at h
      by_cases hlt : tc < t₀
      · rw [if_pos hlt] at h
        simp only [Except.ok.injEq, Prod.mk.injEq] at h
        obtain ⟨h1, h2, h3⟩ := h
        subst h2; subst h3
        exact ⟨r₀, rfl, Or.inr ⟨tc, rfl, hlt, h1.symm⟩⟩
      · rw [if_neg hlt] at h
        simp only [Except.ok.injEq, Prod.mk.injEq] at h
        obtain ⟨h1, h2, h3⟩ := h
        subst h2; subst h3
        refine ⟨r₀, rfl, Or.inl ⟨h1.symm, ?_⟩⟩
        intro tc' htc'
        have : tc' = tc := (Option.some.injEq .. ▸ htc').symm
        omega

theorem mem_keyword_results {wb : Workbook} {q : String} {cap : Nat}
    {tcap : Option Nat} {r : List (String × Sheet)} {c : List (String × Nat)} {t : Nat}
    (h : keyword_search wb q cap tcap = .ok (r, c, t)) :
    ∀ p ∈ r, ∃ df mask, (p.1, df) ∈ wb ∧ dfEmpty df = false ∧
      keyword_match_mask df q = .ok mask ∧ 0 < mask.count true ∧
      p.2 <+: (applyMask df mask).take cap := by
  obtain ⟨r₀, hk, hcase⟩ := keyword_search_cases h
  intro p hp
  rcases hcase with ⟨hr, _⟩ | ⟨tc, _, _, hr⟩
  · subst hr
    obtain ⟨df, mask, h1, h2, h3, h4, h5⟩ := kwLoop_mem_results hk p hp
    exact ⟨df, mask, h1, h2, h3, h4, h5 ▸ List.prefix_refl _⟩
  · subst hr
    obtain ⟨d, hd, hpre⟩ := trimLoop_mem hp
    have hd' : (p.1, d) ∈ r₀ := mem_sortPairs.mp hd
    obtain ⟨df, mask, h1, h2, h3, h4, h5⟩ := kwLoop_mem_results hk (p.1, d) hd'
    exact ⟨df, mask, h1, h2, h3, h4, hpre.trans (by simpa using h5 ▸ List.prefix_refl d)⟩

/-! ## Claim theorems: keyword engine -/

theorem specIdPattern_imp_looks {q : String} (hq : specIdPattern q = true) :
    looks_like_id q = true := by
  have hcore : reIdCore q.data = true := hq
  simp [looks_like_id, hcore]

/-- C1: for every workbook and every query matching the identifier pattern
(letters, then zeros, then digits, anchored at both ends), every row of
every table returned by `keyword_search` has a cell whose string form is
case-insensitively equal to the whole query — never a mere substring
match. -/
theorem C1_identifier_query_exact_match {wb : Workbook} {q : String} {cap : Nat}
    {tcap : Option Nat} {r : List (String × Sheet)} {c : List (String × Nat)} {t : Nat}
    (hq : specIdPattern q = true)
    (h : keyword_search wb q cap tcap = .ok (r, c, t)) :
    ∀ p ∈ r, ∀ row ∈ p.2, ∃ cell ∈ row, strLower cell = strLower q := by
  have hid : looks_like_id q = true := specIdPattern_imp_looks hq
  intro p hp row hrow
  obtain ⟨df, mask, _, _, hm, _, hpre⟩ := mem_keyword_results h p hp
  simp only [keyword_match_mask, hid, if_true, Except.ok.injEq] at hm
  have hrow' : row ∈ applyMask df mask :=
    (hpre.sublist.trans (List.take_sublist _ _)).mem hrow
  rw [← hm] at hrow'
  have hany := (mem_applyMask_map hrow').2
  obtain ⟨cell, hcell, hbeq⟩ := List.any_eq_true.mp hany
  exact ⟨cell, hcell, by simpa using hbeq⟩

/-- Witness for C1 at the spec's own example: querying `"AB007"` over the
`"Parts"` sheet returns only the row whose first cell equals the query. -/
theorem C1_identifier_query_exact_match_witness :
    ∃ cell ∈ ["AB007", "Bolt"], strLower cell = strLower "AB007" :=
  @C1_identifier_query_exact_match
    [("Parts", [["AB007", "Bolt"], ["AB107", "Bolt Long"], ["CD007", "Nut"]])]
    "AB007" 100 (some 1000)
    [("Parts", [["AB007", "Bolt"]])] [("Parts", 1)] 1
    (by decide) rfl ("Parts", [["AB007", "Bolt"]]) (by simp)
    ["AB007", "Bolt"] (by simp)

/-- C2 (code bug): the claim asks that a non-identifier query match by
case-insensitive *literal* substring containment, but the code hands the
query to `str.contains` with its default `regex=True`, so the query is
interpreted as a regular expression: the non-identifier query `"a.c"`
matches the cell `"abc"` (the `.` matches `b`) and the row is returned,
even though `"a.c"` is not a literal substring of `"abc"`. -/
theorem C2_regex_containment_bug :
    keyword_search [("S", [["abc"]])] "a.c" 100 (some 1000)
      = .ok ([("S", [["abc"]])], [("S", 1)], 1) ∧
    containsLiteralCI "abc" "a.c" = false ∧
    looks_like_id "a.c" = false :=
  ⟨rfl, rfl, rfl⟩

/-- C3 (code bug): the claim says `keyword_search` never raises and falls
back to the substring policy on any malformed query, but the query `"("`
is not identifier-like, is compiled as a regular expression by
`str.contains`, and `re.compile("(")` raises `re.error: missing ),
unterminated subpattern` — the search over any nonempty sheet fails
instead of returning results. -/
theorem C3_invalid_regex_query_raises :
    keyword_search [("S", [["x"]])] "(" 100 (some 1000) = .error () ∧
    looks_like_id "(" = false :=
  ⟨rfl, rfl⟩

/-- C4: whenever `keyword_search` returns, the per-sheet counts sum to the
returned total, and each sheet's reported count is the uncapped number of
matching rows of that sheet, computed before any truncation. -/
theorem C4_counts_sum_to_total {wb : Workbook} {q : String} {cap : Nat}
    {tcap : Option Nat} {r : List (String × Sheet)} {c : List (String × Nat)} {t : Nat}
    (hnd : (wb.map Prod.fst).Nodup)
    (h : keyword_search wb q cap tcap = .ok (r, c, t)) :
    (c.map Prod.snd).sum = t ∧
    ∀ n df, (n, df) ∈ wb → ∃ cnt, c.lookup n = some cnt ∧ uncappedCount df q = .ok cnt := by
  obtain ⟨r₀, hk, _⟩ := keyword_search_cases h
  exact ⟨kwLoop_sum_counts hk, kwLoop_lookup_counts hnd hk⟩

/-- Witness for C4 at the spec's `"bolt"` example: the count reported for
`"Parts"` is the uncapped match count, and the counts sum to the total. -/
theorem C4_counts_sum_to_total_witness :
    (([("Parts", 2)] : List (String × Nat)).map Prod.snd).sum = 2 ∧
    ∃ cnt, ([("Parts", 2)] : List (String × Nat)).lookup "Parts" = some cnt ∧
      uncappedCount [["AB007", "Bolt"], ["AB107", "Bolt Long"], ["CD007", "Nut"]] "bolt"
        = .ok cnt := by
  have h := @C4_counts_sum_to_total
    [("Parts", [["AB007", "Bolt"], ["AB107", "Bolt Long"], ["CD007", "Nut"]])]
    "bolt" 100 (some 1000)
    [("Parts", [["AB007", "Bolt"], ["AB107", "Bolt Long"]])]
    [("Parts", 2)] 2 (by simp) rfl
  exact ⟨h.1, h.2 "Parts" _ (by simp)⟩

/-- C5: no returned per-sheet table exceeds `per_sheet_cap` rows, and the
total number of returned rows across sheets never exceeds `total_cap`. -/
theorem C5_caps_respected {wb : Workbook} {q : String} {cap tc : Nat}
    {r : List (String × Sheet)} {c : List (String × Nat)} {t : Nat}
    (h : keyword_search wb q cap (some tc) = .ok (r, c, t)) :
    (∀ p ∈ r, p.2.length ≤ cap) ∧ sumLens r ≤ tc := by
  constructor
  · intro p hp
    obtain ⟨df, mask, _, _, _, _, hpre⟩ := mem_keyword_results h p hp
    calc p.2.length ≤ ((applyMask df mask).take cap).length := hpre.length_le
      _ ≤ cap := by simp [List.length_take]
  · obtain ⟨r₀, hk, hcase⟩ := keyword_search_cases h
    rcases hcase with ⟨hr, hle⟩ | ⟨tc', htc', hlt, hr⟩
    · subst hr
      exact le_trans (kwLoop_sumLens hk) (hle tc rfl)
    · have htc : tc' = tc := by
        have := Option.some.injEq tc tc' ▸ htc'
        omega
      subst htc; subst hr
      exact trimLoop_sumLens_le _ _

/-- Witness for C5 at the spec's `"bolt"` example. -/
theorem C5_caps_respected_witness :
    sumLens [("Parts", [["AB007", "Bolt"], ["AB107", "Bolt Long"]])] ≤ 1000 :=
  (@C5_caps_respected
    [("Parts", [["AB007", "Bolt"], ["AB107", "Bolt Long"], ["CD007", "Nut"]])]
    "bolt" 100 1000
    [("Parts", [["AB007", "Bolt"], ["AB107", "Bolt Long"]])]
    [("Parts", 2)] 2 rfl).2

/-- C6: when the per-sheet candidates jointly exceed `total_cap`, the final
results are the greedy fill of the lexicographically name-sorted
candidates — whole candidates while they fit, a leading-rows portion of
the first that does not, nothing afterwards, `total_cap` rows in all —
while counts and total are those of the untrimmed run; in particular with
`per_sheet_cap=1`, `total_cap=1` and two sheets of two matches each,
exactly one row of the lexicographically first sheet is returned with
counts 2 and 2 and total 4. -/
theorem C6_global_cap_greedy_fill {wb : Workbook} {q : String} {cap tc : Nat}
    {r₀ r : List (String × Sheet)} {c₀ c : List (String × Nat)} {t₀ t : Nat}
    (hk : kwLoop q cap wb = .ok (r₀, c₀, t₀))
    (hgt : tc < sumLens r₀)
    (h : keyword_search wb q cap (some tc) = .ok (r, c, t)) :
    c = c₀ ∧ t = t₀ ∧ r = trimLoop (sortPairs r₀) tc ∧ sumLens r = tc ∧
    (r.map Prod.fst) <+: ((sortPairs r₀).map Prod.fst) ∧
    (∀ p ∈ r, ∃ d, (p.1, d) ∈ r₀ ∧ p.2 <+: d) ∧
    keyword_search [("B", [["x"], ["x"]]), ("A", [["x"], ["x"]])] "x" 1 (some 1)
      = .ok ([("A", [["x"]])], [("B", 2), ("A", 2)], 4) := by
  obtain ⟨r₀', hk', hcase⟩ := keyword_search_cases h
  rw [hk] at hk'
  simp only [Except.ok.injEq, Prod.mk.injEq] at hk'
  obtain ⟨hr₀, hc₀, ht₀⟩ := hk'
  subst hr₀; subst hc₀; subst ht₀
  have hlt : tc < t₀ := lt_of_lt_of_le hgt (kwLoop_sumLens hk)
  rcases hcase with ⟨_, hle⟩ | ⟨tc', htc', _, hr⟩
  · exact absurd (hle tc rfl) (by omega)
  · have htc : tc' = tc := by
      have := Option.some.injEq tc tc' ▸ htc'
      omega
    subst htc; subst hr
    refine ⟨rfl, rfl, rfl, ?_, trimLoop_keys _ _, ?_, rfl⟩
    · exact trimLoop_sumLens_eq (by rw [sumLens_sortPairs]; exact hgt)
    · intro p hp
      obtain ⟨d, hd, hpre⟩ := trimLoop_mem hp
      exact ⟨d, mem_sortPairs.mp hd, hpre⟩

/-- Witness for C6 at the claim's own two-sheet example. -/
theorem C6_global_cap_greedy_fill_witness :
    [("A", [["x"]])] = trimLoop (sortPairs [("B", [["x"]]), ("A", [["x"]])]) 1 :=
  (@C6_global_cap_greedy_fill
    [("B", [["x"], ["x"]]), ("A", [["x"], ["x"]])] "x" 1 1
    [("B", [["x"]]), ("A", [["x"]])] [("A", [["x"]])]
    [("B", 2), ("A", 2)] [("B", 2), ("A", 2)] 4 4
    rfl (by decide) rfl).2.2.1

theorem kwLoop_results_keys {q : String} {cap : Nat} {wb : Workbook}
    {r : List (String × Sheet)} {c : List (String × Nat)} {t : Nat}
    (h : kwLoop q cap wb = .ok (r, c, t)) :
    (r.map Prod.fst).Sublist (wb.map Prod.fst) := by
  induction wb generalizing r c t with
  | nil =>
    obtain ⟨hr, _, _⟩ := kwLoop_nil_ok h
    subst hr; simp
  | cons hd rest ih =>
    obtain ⟨n, df⟩ := hd
    rcases kwLoop_cons_ok h with ⟨c', _, hk, _⟩ | ⟨mask, r', c', t', _, _, hk, hr, _, _⟩
    · exact (ih hk).cons n
    · subst hr
      by_cases hpos : 0 < mask.count true
      · rw [if_pos hpos]
        exact (ih hk).cons₂ n
      · rw [if_neg hpos]
        exact (ih hk).cons n

theorem assoc_mem_unique {wb : Workbook} (hnd : (wb.map Prod.fst).Nodup)
    {n : String} {a b : Sheet} (ha : (n, a) ∈ wb) (hb : (n, b) ∈ wb) : a = b := by
  induction wb with
  | nil => simp at ha
  | cons hd rest ih =>
    obtain ⟨m, e⟩ := hd
    simp only [List.map_cons, List.nodup_cons] at hnd
    rcases List.mem_cons.mp ha with hae | hat <;> rcases List.mem_cons.mp hb with hbe | hbt
    · have h1 : a = e := congrArg Prod.snd hae
      have h2 : b = e := congrArg Prod.snd hbe
      exact h1.trans h2.symm
    · have h1 : n = m := congrArg Prod.fst hae
      exact absurd (List.mem_map.mpr ⟨(n, b), hbt, h1⟩) hnd.1
    · have h1 : n = m := congrArg Prod.fst hbe
      exact absurd (List.mem_map.mpr ⟨(n, a), hat, h1⟩) hnd.1
    · exact ih hnd.2 hat hbt

theorem trimLoop_drop_absent :
    ∀ (S₁ : List (String × Sheet)) (n : String) (d : Sheet)
      (S₂ : List (String × Sheet)) (tc : Nat),
      (((S₁ ++ (n, d) :: S₂).map Prod.fst)).Nodup → tc ≤ sumLens S₁ →
      ∀ s, (n, s) ∉ trimLoop (S₁ ++ (n, d) :: S₂) tc := by
  intro S₁
  induction S₁ with
  | nil =>
    intro n d S₂ tc _ hsum s hs
    have h0 : tc = 0 := Nat.le_zero.mp (by simpa [sumLens] using hsum)
    subst h0
    simp [trimLoop] at hs
  | cons hd S₁' ih =>
    obtain ⟨m, e⟩ := hd
    intro n d S₂ tc hnd hsum s hs
    simp only [List.cons_append, List.map_cons, List.nodup_cons] at hnd
    have hmn : m ≠ n := by
      intro heq
      exact hnd.1 (List.mem_map.mpr ⟨(n, d), by simp, heq.symm⟩)
    simp only [List.cons_append, trimLoop] at hs
    by_cases h0 : tc = 0
    · simp [h0] at hs
    · rw [if_neg h0] at hs
      by_cases hle : e.length ≤ tc
      · rw [if_pos hle] at hs
        rcases List.mem_cons.mp hs with heq | htl
        · exact hmn (congrArg Prod.fst heq).symm
        · have hsum' : tc - e.length ≤ sumLens S₁' := by
            simp only [sumLens, List.map_cons, List.sum_cons] at hsum ⊢
            omega
          exact ih n d S₂ (tc - e.length) hnd.2 hsum' s htl
      · rw [if_neg hle] at hs
        rcases List.mem_cons.mp hs with heq | htl
        · exact hmn (congrArg Prod.fst heq).symm
        · simp at htl

/-- C10: the returned counts mapping has one entry per sheet of the
workbook, in order (zero for empty sheets), while the results mapping
holds only sheets with at least one (uncapped) matching row: every
results entry names a sheet with a positive uncapped count; a sheet
whose uncapped count is zero (in particular an empty sheet) has no
binding in results at all; and in a run that the global cap trims, a
candidate sheet whose lexicographic predecessors already fill the whole
budget has no binding in results for any table value — dropped outright,
never mapped to an empty table. -/
theorem C10_counts_exhaustive_results_matched {wb : Workbook} {q : String}
    {cap : Nat} {tcap : Option Nat} {r : List (String × Sheet)}
    {c : List (String × Nat)} {t : Nat}
    (h : keyword_search wb q cap tcap = .ok (r, c, t)) :
    c.map Prod.fst = wb.map Prod.fst ∧
    (∀ n df, (n, df) ∈ wb → dfEmpty df = true → (n, 0) ∈ c) ∧
    (∀ p ∈ r, ∃ df cnt, (p.1, df) ∈ wb ∧ uncappedCount df q = .ok cnt ∧ 0 < cnt) ∧
    ((wb.map Prod.fst).Nodup →
      ∀ n df, (n, df) ∈ wb → uncappedCount df q = .ok 0 → ∀ s, (n, s) ∉ r) ∧
    ((wb.map Prod.fst).Nodup →
      ∀ tc r₀ c₀ t₀ S₁ n d S₂, tcap = some tc →
        kwLoop q cap wb = .ok (r₀, c₀, t₀) → tc < t₀ →
        sortPairs r₀ = S₁ ++ (n, d) :: S₂ → tc ≤ sumLens S₁ →
        ∀ s, (n, s) ∉ r) := by
  obtain ⟨r₀', hk', hcase⟩ := keyword_search_cases h
  refine ⟨kwLoop_counts_keys hk', kwLoop_counts_mem_zero hk', ?_, ?_, ?_⟩
  · intro p hp
    obtain ⟨df, mask, hmem, hne, hm, hpos, _⟩ := mem_keyword_results h p hp
    exact ⟨df, mask.count true, hmem, by simp [uncappedCount, hne, hm], hpos⟩
  · intro hnd n df hmem hzero s hs
    obtain ⟨df', mask, hmem', hne, hm, hpos, _⟩ := mem_keyword_results h (n, s) hs
    have hdf : df = df' := assoc_mem_unique hnd hmem hmem'
    subst hdf
    have hcnt : uncappedCount df q = .ok (mask.count true) := by
      simp [uncappedCount, hne, hm]
    rw [hzero] at hcnt
    simp only [Except.ok.injEq] at hcnt
    omega
  · intro hnd tc r₀ c₀ t₀ S₁ n d S₂ htcap hk hlt hsort hsum s hs
    rw [hk] at hk'
    simp only [Except.ok.injEq, Prod.mk.injEq] at hk'
    obtain ⟨hr₀, hc₀, ht₀⟩ := hk'
    subst hr₀; subst hc₀; subst ht₀
    rcases hcase with ⟨_, hle⟩ | ⟨tc', htc', _, hr⟩
    · exact absurd (hle tc htcap) (by omega)
    · have htc : tc' = tc := by
        rw [htcap] at htc'
        exact (Option.some.injEq .. ▸ htc').symm
      rw [htc] at hr
      subst hr
      have hndr : ((sortPairs r₀).map Prod.fst).Nodup :=
        (((List.perm_insertionSort _ r₀).map Prod.fst).nodup_iff).mpr
          ((kwLoop_results_keys hk).nodup hnd)
      rw [hsort] at hndr hs
      exact trimLoop_drop_absent S₁ n d S₂ tc hndr hsum s hs

/-- Witness for C10 at the two-sheet global-cap example: counts cover
both sheets, and the sheet `"B"` dropped by the global cap has no
binding in the results — in particular it is not mapped to the empty
table. -/
theorem C10_counts_exhaustive_results_matched_witness :
    ([("B", 2), ("A", 2)] : List (String × Nat)).map Prod.fst
      = (([("B", [["x"], ["x"]]), ("A", [["x"], ["x"]])] : Workbook)).map Prod.fst ∧
    ("B", ([] : Sheet)) ∉ ([("A", [["x"]])] : List (String × Sheet)) := by
  have h := @C10_counts_exhaustive_results_matched
    [("B", [["x"], ["x"]]), ("A", [["x"], ["x"]])] "x" 1 (some 1)
    [("A", [["x"]])] [("B", 2), ("A", 2)] 4 rfl
  refine ⟨h.1, ?_⟩
  exact h.2.2.2.2 (by decide) 1 [("B", [["x"]]), ("A", [["x"]])] [("B", 2), ("A", 2)] 4
    [("A", [["x"]])] "B" [["x"]] [] rfl rfl (by decide) rfl (by decide) []

/-! ## Claim theorems: semantic index -/

theorem argsortDesc_mem {sims : List ℚ} {i : Nat}
    (h : i ∈ TfIdfSemantic.argsortDesc sims) : i < sims.length := by
  unfold TfIdfSemantic.argsortDesc at h
  rw [List.mem_reverse] at h
  exact List.mem_range.mp ((List.perm_insertionSort _ _).mem_iff.mp h)

theorem argsortDesc_sorted (sims : List ℚ) :
    List.Pairwise (fun i j => sims.getD j 0 ≤ sims.getD i 0)
      (TfIdfSemantic.argsortDesc sims) := by
  unfold TfIdfSemantic.argsortDesc
  rw [List.pairwise_reverse]
  haveI : IsTotal Nat (fun i j => sims.getD i 0 ≤ sims.getD j 0) :=
    ⟨fun a b => le_total _ _⟩
  haveI : IsTrans Nat (fun i j => sims.getD i 0 ≤ sims.getD j 0) :=
    ⟨fun a b c hab hbc => le_trans hab hbc⟩
  exact List.sorted_insertionSort _ _

/-- C7: for every indexed sheet, semantic search returns at most
`top_k_per_sheet` rows, in non-increasing order of similarity score, and
every returned entry is a stored row of that sheet paired, as its leading
field, with the similarity score the scoring step assigned to that row. -/
theorem C7_semantic_topk_sorted {sim : List String → List String → String → List ℚ}
    {st : TfIdfSemantic.State} {q : String} {topK : Nat} {name : String}
    {out : List (ℚ × Row)}
    (hlen : ∀ p ∈ st, (sim p.2.vec p.2.mat q).length = p.2.rws.length)
    (hmem : (name, out) ∈ TfIdfSemantic.search sim st q topK) :
    out.length ≤ topK ∧ List.Sorted (· ≥ ·) (out.map Prod.fst) ∧
    ∃ ix, (name, ix) ∈ st ∧ ∀ e ∈ out, ∃ i, i < ix.rws.length ∧
      e = ((sim ix.vec ix.mat q).getD i 0, ix.rws.getD i []) := by
  unfold TfIdfSemantic.search at hmem
  rw [List.mem_filterMap] at hmem
  obtain ⟨p, hp, hf⟩ := hmem
  cases hz : (p.2.mat.length == 0) with
  | true => rw [if_pos hz] at hf; simp at hf
  | false =>
    rw [if_neg (by simp [hz])] at hf
    simp only [Option.some.injEq, Prod.mk.injEq] at hf
    obtain ⟨hn, hout⟩ := hf
    have hsims := hlen p hp
    refine ⟨?_, ?_, p.2, by rw [← hn]; exact hp, ?_⟩
    · rw [← hout]
      calc (((TfIdfSemantic.argsortDesc _).take topK).map _).length
          = ((TfIdfSemantic.argsortDesc _).take topK).length := List.length_map _ _
        _ ≤ topK := by simp [List.length_take]
    · rw [← hout, List.map_map]
      have hpair := (argsortDesc_sorted (sim p.2.vec p.2.mat q)).sublist
        (List.take_sublist topK _)
      exact List.Pairwise.map _ (fun a b hab => hab) hpair
    · intro e he
      rw [← hout] at he
      obtain ⟨i, hi, hie⟩ := List.mem_map.mp he
      have hmem' : i ∈ TfIdfSemantic.argsortDesc (sim p.2.vec p.2.mat q) :=
        (List.take_sublist topK _).mem hi
      exact ⟨i, hsims ▸ argsortDesc_mem hmem', hie.symm⟩

/-- Witness for C7: a three-row sheet with scores 1, 3, 2 and
`top_k_per_sheet = 2` yields the two best rows. -/
theorem C7_semantic_topk_sorted_witness :
    ([((3 : ℚ), ["r1"]), ((2 : ℚ), ["r2"])] : List (ℚ × Row)).length ≤ 2 := by
  have h := @C7_semantic_topk_sorted
    (fun _ _ _ => [(1 : ℚ), 3, 2])
    [("S", ⟨["aa"], ["d0", "d1", "d2"], [["r0"], ["r1"], ["r2"]]⟩)]
    "q" 2 "S"
    [((3 : ℚ), ["r1"]), ((2 : ℚ), ["r2"])]
    (by intro p hp; rcases List.mem_singleton.mp hp with rfl; rfl)
    (show _ ∈ [("S", [((3 : ℚ), ["r1"]), ((2 : ℚ), ["r2"])])] from
      List.mem_singleton.mpr rfl)
  exact h.1

/-- C8: after a build with limit `L`, every sheet stored in the index
stores exactly the leading `L`-row segment of that sheet — a true leading
segment of the sheet's rows, never a sample — of length at most `L`, so
the row indices the similarity search reports map back to original row
positions. -/
theorem C8_index_rows_leading {wb : Workbook} {L : Nat} {name : String} {ix : SheetIndex}
    (hmem : (name, ix) ∈ (TfIdfSemantic.build (some L) wb).1) :
    ∃ df, (name, df) ∈ wb ∧ ix.rws = df.take L ∧ ix.rws <+: df ∧ ix.rws.length ≤ L := by
  induction wb with
  | nil => simp [TfIdfSemantic.build] at hmem
  | cons hd rest ih =>
    obtain ⟨n, df⟩ := hd
    simp only [TfIdfSemantic.build] at hmem
    cases hemp : (row_texts (df.take L)).isEmpty with
    | true =>
      rw [if_pos hemp] at hmem
      obtain ⟨d, h1, h2, h3, h4⟩ := ih hmem
      exact ⟨d, List.mem_cons_of_mem _ h1, h2, h3, h4⟩
    | false =>
      rw [if_neg (by simp [hemp])] at hmem
      cases hv : fitVocab (row_texts (df.take L)) with
      | error e => rw [hv] at hmem; simp at hmem
      | ok vec =>
        rw [hv] at hmem
        rcases List.mem_cons.mp hmem with heq | htl
        · have hn : name = n := congrArg Prod.fst heq
          have hix : ix = ⟨vec, row_texts (df.take L), df.take L⟩ :=
            congrArg Prod.snd heq
          subst hn
          refine ⟨df, List.mem_cons_self _ _, by rw [hix], ?_, ?_⟩
          · rw [hix]
            exact ⟨df.drop L, List.take_append_drop L df⟩
          · rw [hix]
            simp [List.length_take]
        · obtain ⟨d, h1, h2, h3, h4⟩ := ih htl
          exact ⟨d, List.mem_cons_of_mem _ h1, h2, h3, h4⟩

/-- Witness for C8 on a two-row sheet truncated to one row. -/
theorem C8_index_rows_leading_witness :
    ∃ df, ("A", df) ∈ ([("A", [["hello world"], ["more rows"]])] : Workbook) ∧
      ([["hello world"]] : Sheet) = df.take 1 ∧
      ([["hello world"]] : Sheet) <+: df ∧ ([["hello world"]] : Sheet).length ≤ 1 :=
  @C8_index_rows_leading
    [("A", [["hello world"], ["more rows"]])] 1 "A"
    ⟨["hello", "world"], ["hello world"], [["hello world"]]⟩
    (show _ ∈ [("A", (⟨["hello", "world"], ["hello world"],
        [["hello world"]]⟩ : SheetIndex))] from List.mem_singleton.mpr rfl)

theorem build_ok_keys {L : Nat} {wb : Workbook}
    (h : (TfIdfSemantic.build (some L) wb).2 = true) :
    (TfIdfSemantic.build (some L) wb).1.map Prod.fst
      = (wb.filter (fun p => !(row_texts (p.2.take L)).isEmpty)).map Prod.fst := by
  induction wb with
  | nil => rfl
  | cons hd rest ih =>
    obtain ⟨n, df⟩ := hd
    simp only [TfIdfSemantic.build] at h ⊢
    rcases Bool.eq_false_or_eq_true ((row_texts (df.take L)).isEmpty) with hemp | hemp
    · rw [if_pos hemp] at h ⊢
      rw [List.filter_cons]
      simp only [hemp, Bool.not_true, Bool.false_eq_true, if_false]
      exact ih h
    · rw [if_neg (by simp [hemp])] at h ⊢
      rcases hv : fitVocab (row_texts (df.take L)) with e | vec
      · rw [hv] at h; simp at h
      · rw [hv] at h
        dsimp only at h ⊢
        rw [List.filter_cons]
        simp only [hemp, Bool.not_false, if_true, List.map_cons]
        exact congrArg (n :: ·) (ih h)

theorem build_fail_partial {L : Nat} {wb : Workbook}
    (h : (TfIdfSemantic.build (some L) wb).2 = false) :
    ∃ m, m < wb.length ∧
      TfIdfSemantic.build (some L) (wb.take m)
        = ((TfIdfSemantic.build (some L) wb).1, true) := by
  induction wb with
  | nil => simp [TfIdfSemantic.build] at h
  | cons hd rest ih =>
    obtain ⟨n, df⟩ := hd
    simp only [TfIdfSemantic.build] at h ⊢
    rcases Bool.eq_false_or_eq_true ((row_texts (df.take L)).isEmpty) with hemp | hemp
    · rw [if_pos hemp] at h ⊢
      obtain ⟨m, hm, hb⟩ := ih h
      refine ⟨m + 1, by simpa using hm, ?_⟩
      show TfIdfSemantic.build (some L) ((n, df) :: rest.take m) = _
      simp only [TfIdfSemantic.build]
      rw [if_pos hemp]
      exact hb
    · rw [if_neg (by simp [hemp])] at h ⊢
      rcases hv : fitVocab (row_texts (df.take L)) with e | vec
      · dsimp only
        exact ⟨0, by simp, rfl⟩
      · rw [hv] at h
        dsimp only at h ⊢
        obtain ⟨m, hm, hb⟩ := ih h
        refine ⟨m + 1, by simpa using hm, ?_⟩
        show TfIdfSemantic.build (some L) ((n, df) :: rest.take m) = _
        simp only [TfIdfSemantic.build]
        rw [if_neg (by simp [hemp]), hv, hb]

/-- C9 counterexample: load, over an initially clean engine, a workbook
whose sheet `"A"` indexes fine but whose sheet `"B"` has a row (so it is
not a legitimate zero-document skip) containing no word token, so that
`TfidfVectorizer.fit_transform` raises `ValueError: empty vocabulary`.
`SHEETS` was assigned before `SEM.build` ran, and the exception is caught
after the partial mutation: the engine ends up holding the full two-sheet
workbook next to an index populated only with `"A"` — a loaded workbook
alongside a partially populated index, which the claim says never
happens, and not the claimed clean no-workbook-available state. -/
theorem C9_partial_rebuild_counterexample :
    load_workbook ⟨[], []⟩ (.ok [("A", [["hello world"]]), ("B", [["!!"]])])
      = (⟨[("A", [["hello world"]]), ("B", [["!!"]])],
          [("A", ⟨["hello", "world"], ["hello world"], [["hello world"]]⟩)]⟩, false) ∧
    row_texts [["!!"]] ≠ [] ∧
    ([("A", [["hello world"]]), ("B", [["!!"]])] : Workbook).length = 2 :=
  ⟨rfl, by decide, rfl⟩

/-- C9 (amended): a load with a failed parse leaves the previous engine
state untouched; a load with a successful parse always installs the new
workbook and rebuilds the index from it alone (independent of any prior
state); when the rebuild completes, the index holds exactly the new
workbook's sheets that yield documents, and when the rebuild fails
midway, the new workbook remains loaded alongside a partially populated
index — the completed build of a proper leading segment of the sheet
list. -/
theorem C9_load_replace_behavior {st : AppState} {parsed : Except Unit Workbook}
    {res : AppState} {flag : Bool}
    (h : load_workbook st parsed = (res, flag)) :
    (∀ e, parsed = .error e → res = st ∧ flag = false) ∧
    (∀ wb, parsed = .ok wb →
      res.SHEETS = wb ∧
      (res.SEM, flag) = TfIdfSemantic.build (some 5000) wb ∧
      (∀ st', load_workbook st' parsed = (res, flag)) ∧
      (flag = true →
        res.SEM.map Prod.fst
          = (wb.filter (fun p => !(row_texts (p.2.take 5000)).isEmpty)).map Prod.fst) ∧
      (flag = false → ∃ m, m < wb.length ∧
        TfIdfSemantic.build (some 5000) (wb.take m) = (res.SEM, true))) := by
  constructor
  · intro e he
    subst he
    simp only [load_workbook, Prod.mk.injEq] at h
    exact ⟨h.1.symm, h.2.symm⟩
  · intro wb hwb
    subst hwb
    simp only [load_workbook, Prod.mk.injEq] at h
    obtain ⟨h1, h2⟩ := h
    subst h1; subst h2
    refine ⟨rfl, rfl, fun st' => rfl, ?_, ?_⟩
    · intro hfl
      exact build_ok_keys hfl
    · intro hfl
      obtain ⟨m, hm, hb⟩ := build_fail_partial hfl
      exact ⟨m, hm, hb⟩

/-- Witness for C9's amended theorem on a clean one-sheet load. -/
theorem C9_load_replace_behavior_witness :
    (⟨[("A", [["hello world"]])],
      [("A", ⟨["hello", "world"], ["hello world"], [["hello world"]]⟩)]⟩ : AppState).SHEETS
      = [("A", [["hello world"]])] := by
  have h := @C9_load_replace_behavior
    ⟨[], []⟩ (.ok [("A", [["hello world"]])])
    ⟨[("A", [["hello world"]])],
      [("A", ⟨["hello", "world"], ["hello world"], [["hello world"]]⟩)]⟩
    true rfl
  exact (h.2 _ rfl).1

end DataSearchEngine
